import Mathlib

/-!
Verification of the `big_vec` / `fee` modules of the stake-pool program.

The Rust source operates on a caller-provided mutable byte buffer
(`&mut [u8]`).  We embed the buffer shallowly as `List Nat`, one entry per
byte (values < 256 for well-formed buffers).  Machine integers are embedded
as `Nat` with explicit `% 2 ^ w` at the points where the source performs a
width-truncating operation (u32 length increment, `as u64` casts, u64
multiplication).  Fallible operations return their result together with an
`Except` mirroring the Rust `Result`.
-/

/-- A byte buffer: one `Nat` per byte. -/
abbrev Bytes := List Nat

/-- Byte at index `i` (0 when out of range); used to reason pointwise. -/
def byteAt (data : Bytes) (i : Nat) : Nat := data.getD i 0

/-- Overwrite `src.length` bytes of `data` starting at `pos`
(the semantics of writing through a mutable sub-slice). -/
def writeBytes (data : Bytes) (pos : Nat) (src : Bytes) : Bytes :=
  data.take pos ++ src ++ data.drop (pos + src.length)

/-- Read `len` bytes of `data` starting at `pos` (a shared sub-slice). -/
def extractBytes (data : Bytes) (pos len : Nat) : Bytes :=
  (data.drop pos).take len

/-- `sol_memmove(dst, src, count)`: overlap-safe copy, i.e. the copy reads
all of the source region before any write becomes visible. -/
def memmove (data : Bytes) (dst src count : Nat) : Bytes :=
  writeBytes data dst (extractBytes data src count)

/-- Little-endian bytes of a `u32` value, as written by borsh `serialize`. -/
def u32Bytes (n : Nat) : Bytes :=
  [n % 256, n / 256 % 256, n / 256 ^ 2 % 256, n / 256 ^ 3 % 256]

/-- Little-endian `u32` read of the first four bytes, as performed by
`u32::from_le_bytes` / borsh `try_from_slice` on `data[0..4]`.  Callers in
the source panic earlier when the buffer is shorter than four bytes, so the
default value for short buffers is never observed under the well-formedness
hypotheses of the theorems below. -/
def readU32 (data : Bytes) : Nat :=
  match data with
  | b0 :: b1 :: b2 :: b3 :: _ => b0 + 256 * (b1 + 256 * (b2 + 256 * b3))
  | _ => 0

/-!
## Fee (`fee.rs`)

`Fee` holds two `u64` fields.  We embed `u64` values as `Nat`; every
operation the source performs in `u64` (or `u128`) arithmetic is written
with an explicit `% 2 ^ 64` (resp. `% 2 ^ 128`) at the points where Rust
would truncate.
-/

/-- `MAX_FEE_PRECISION`: max value for Fee's denominator. -/
def MAX_FEE_PRECISION : Nat := 1000000000

/-- The two error variants of `StakePoolError` that `fee.rs` returns. -/
inductive StakePoolError where
  | InvalidFeeDenominator
  | FeeTooHigh
deriving DecidableEq

/-- Fee rate as a ratio. -/
structure Fee where
  numerator : Nat
  denominator : Nat
deriving DecidableEq

namespace Fee

/-- The value produced by Rust's `derive(Default)`: both `u64` fields 0. -/
def derivedDefault : Fee := ⟨0, 0⟩

/-- Creates a new Fee struct that represents 0 fees. -/
def zero : Fee := ⟨0, 1⟩

/-- `check`: validity test run on deserialized values. -/
def check (f : Fee) : Except StakePoolError Unit :=
  if f.denominator = 0 ∨ f.denominator > MAX_FEE_PRECISION then
    Except.error StakePoolError.InvalidFeeDenominator
  else if f.numerator > f.denominator then
    Except.error StakePoolError.FeeTooHigh
  else
    Except.ok ()

/-- `try_new`: build a Fee and run `check` on it (the `?` operator). -/
def try_new (numerator denominator : Nat) : Except StakePoolError Fee :=
  let res : Fee := ⟨numerator, denominator⟩
  match res.check with
  | Except.error e => Except.error e
  | Except.ok _ => Except.ok res

/-- `apply`: widen both operands to u128, multiply and divide there, then
cast the quotient back `as u64`. -/
def apply (f : Fee) (amt : Nat) : Nat :=
  amt * f.numerator % 2 ^ 128 / f.denominator % 2 ^ 64

/-- `PartialEq::eq`: cross-multiplication, performed in `u64` arithmetic. -/
def eq (a b : Fee) : Bool :=
  (a.numerator * b.denominator % 2 ^ 64) == (b.numerator * a.denominator % 2 ^ 64)

/-- `Ord::cmp`: cross-multiplication, performed in `u64` arithmetic. -/
def cmp (a b : Fee) : Ordering :=
  compare (a.numerator * b.denominator % 2 ^ 64) (b.numerator * a.denominator % 2 ^ 64)

/-- `ops::Mul::mul`: multiply numerators and denominators (u64), then
rescale when the denominator exceeds `MAX_FEE_PRECISION`. -/
def mul (a b : Fee) : Fee :=
  let numerator := a.numerator * b.numerator % 2 ^ 64
  let denominator := a.denominator * b.denominator % 2 ^ 64
  if denominator > MAX_FEE_PRECISION then
    let divisor := max 2 (denominator / MAX_FEE_PRECISION)
    ⟨numerator / divisor, denominator / divisor⟩
  else
    ⟨numerator, denominator⟩

/-- The invariant `check` establishes (plus positivity of the denominator). -/
def Valid (f : Fee) : Prop :=
  0 < f.denominator ∧ f.denominator ≤ MAX_FEE_PRECISION ∧ f.numerator ≤ f.denominator

end Fee

/-!
## BigVec (`big_vec.rs`)

`BigVec<'data>` wraps the mutable byte buffer `&'data mut [u8]`; we embed
the buffer itself (`Bytes`) and each method as a function of it, returning
the updated buffer together with the Rust `Result`.  A record type `T` with
`T::LEN = W` is abstracted by its width `W`, a decode function `dec`
(the unchecked pointer cast `&*(slice.as_ptr() as *const T)` merely reads
the `W` bytes as a `T`) and an encode function `enc` (`pack_into_slice`).
-/

/-- The `ProgramError` variants `big_vec.rs` returns:
`AccountDataTooSmall` for capacity/range violations and `InvalidArgument`
for a duplicate key in `insert_in_order`. -/
inductive ProgramError where
  | AccountDataTooSmall
  | InvalidArgument
deriving DecidableEq

namespace BigVec

/-- `BigVec::len`: little-endian `u32` read of `data[0..4]`. -/
def len (data : Bytes) : Nat := readU32 data

/-- The encoding of record `i`: bytes `[4 + i·W, 4 + (i+1)·W)`. -/
def recordBytes (W : Nat) (data : Bytes) (i : Nat) : Bytes :=
  extractBytes data (4 + i * W) W

/-- Record `i` decoded as an element. -/
def recAt {α : Type} (W : Nat) (dec : Bytes → α) (data : Bytes) (i : Nat) : α :=
  dec (recordBytes W data i)

/-- The stored sequence of record encodings, indices `[0, len)`. -/
def storedBytes (W : Nat) (data : Bytes) : List Bytes :=
  (List.range (len data)).map (recordBytes W data)

/-- The stored sequence of decoded elements. -/
def stored {α : Type} (W : Nat) (dec : Bytes → α) (data : Bytes) : List α :=
  (List.range (len data)).map (recAt W dec data)

/-- `BigVec::get`: bounds-checked single-record accessor. -/
def get {α : Type} (W : Nat) (dec : Bytes → α) (data : Bytes) (index : Nat) :
    Option α :=
  if index < len data then some (recAt W dec data index) else none

/-- `BigVec::push`: reads the length, serializes the incremented length
into `data[0..4]`, and only then checks that the buffer can hold the new
record before writing it at the end. -/
def push (W : Nat) (elem : Bytes) (data : Bytes) :
    Bytes × Except ProgramError Unit :=
  let vec_len := readU32 data
  let start_index := 4 + vec_len * W
  let end_index := start_index + W
  let vec_len' := (vec_len + 1) % 2 ^ 32
  let data1 := writeBytes data 0 (u32Bytes vec_len')
  if data1.length < end_index then
    (data1, Except.error ProgramError.AccountDataTooSmall)
  else
    (writeBytes data1 start_index elem, Except.ok ())

/-- The `while min <= max` loop of `BigVec::binary_search`.  The `fuel`
argument bounds the number of iterations so the recursion is structural;
`binary_search` passes `len`, which always suffices because the measure
`max + 1 - min` starts at `len` and strictly decreases every iteration, so
the `fuel = 0` fallback is never reached. -/
def bsLoop {α : Type} [LinearOrder α] (W : Nat) (dec : Bytes → α)
    (data : Bytes) (e : α) : Nat → Nat → Nat → Nat × Bool
  | 0, mn, _ => (mn, false)
  | fuel + 1, mn, mx =>
    if mn ≤ mx then
      let mid := (mx - mn) / 2 + mn
      match get W dec data mid with
      | some elemAtIndex =>
        if elemAtIndex = e then (mid, true)
        else if elemAtIndex < e then bsLoop W dec data e fuel (mid + 1) mx
        else if mid = 0 then (0, false)
        else bsLoop W dec data e fuel mn (mid - 1)
      | none => (0, false)
    else (mn, false)

/-- `BigVec::binary_search`. -/
def binary_search {α : Type} [LinearOrder α] (W : Nat) (dec : Bytes → α)
    (data : Bytes) (e : α) : Nat × Bool :=
  let n := len data
  if n = 0 then (0, false) else bsLoop W dec data e n 0 (n - 1)

/-- `BigVec::insert_in_order`: binary-search for the insertion index, fail
on a duplicate, check capacity, serialize the incremented length, shift the
tail right one record width with `sol_memmove`, write the element. -/
def insert_in_order {α : Type} [LinearOrder α] (W : Nat) (dec : Bytes → α)
    (enc : α → Bytes) (e : α) (data : Bytes) :
    Bytes × Except ProgramError Unit :=
  let res := binary_search W dec data e
  if res.2 then
    (data, Except.error ProgramError.InvalidArgument)
  else
    let buffer_len := data.length
    let vec_len := (readU32 data + 1) % 2 ^ 32
    if 4 + vec_len * W > buffer_len then
      (data, Except.error ProgramError.AccountDataTooSmall)
    else
      let data1 := writeBytes data 0 (u32Bytes vec_len)
      let start := 4 + res.1 * W
      let bytes_to_shift := (vec_len - 1 - res.1) * W
      let data2 := memmove data1 (start + W) start bytes_to_shift
      (writeBytes data2 start (enc e), Except.ok ())

/-- Loop state of `BigVec::retain`'s scan. -/
structure RetainState where
  data : Bytes
  vec_len : Nat
  removals_found : Nat
  dst_start_index : Nat

/-- One iteration of the `retain` scan, for the record starting at
`start_index` of the current buffer. -/
def retainStep (W : Nat) (p : Bytes → Bool) (start_index : Nat)
    (s : RetainState) : RetainState :=
  let slice := extractBytes s.data start_index W
  if !p slice then
    let gap := s.removals_found * W
    let data' :=
      if s.removals_found > 0 then
        memmove s.data s.dst_start_index (s.dst_start_index + gap)
          (start_index - gap - s.dst_start_index)
      else s.data
    ⟨data', s.vec_len - 1, s.removals_found + 1, start_index - gap⟩
  else s

/-- The scan `for start_index in (data_start..data_end).step_by(T::LEN)`:
`count` records remain to visit and the next one starts at `start_index`
(for `W > 0` the range contains exactly `len` starts). -/
def retainLoop (W : Nat) (p : Bytes → Bool) :
    Nat → Nat → RetainState → RetainState
  | 0, _, s => s
  | count + 1, start_index, s =>
    retainLoop W p count (start_index + W) (retainStep W p start_index s)

/-- `BigVec::retain`: scan all records, compacting runs of keepers with
overlap-safe bulk moves, then do the final move and rewrite the length
prefix.  The only fallible step, serializing the new length into
`data[0..4]`, cannot fail, so the result is always `Ok`. -/
def retain (W : Nat) (p : Bytes → Bool) (data : Bytes) :
    Bytes × Except ProgramError Unit :=
  let vec_len := readU32 data
  let data_end_index := 4 + vec_len * W
  let s := retainLoop W p vec_len 4 ⟨data, vec_len, 0, 0⟩
  let gap := s.removals_found * W
  let data1 :=
    if s.removals_found > 0 then
      memmove s.data s.dst_start_index (s.dst_start_index + gap)
        (data_end_index - gap - s.dst_start_index)
    else s.data
  (writeBytes data1 0 (u32Bytes s.vec_len), Except.ok ())

/-- `BigVec::deserialize_mut_slice`, with every returned `&mut T` modeled
as the half-open byte range of the buffer it aliases;
`chunks_exact_mut(W)` yields one view per full `W`-byte chunk of
`data[start_index..end_index]`. -/
def deserialize_mut_slice (W : Nat) (data : Bytes) (skip plen : Nat) :
    Except ProgramError (List (Nat × Nat)) :=
  let vec_len := readU32 data
  if skip + plen > vec_len then
    Except.error ProgramError.AccountDataTooSmall
  else
    let start_index := 4 + skip * W
    let end_index := start_index + plen * W
    Except.ok ((List.range ((end_index - start_index) / W)).map
      (fun i => (start_index + i * W, start_index + i * W + W)))

end BigVec

/-- Indices `j < i` whose record satisfies the predicate. -/
def keepIdx (W : Nat) (p : Bytes → Bool) (data : Bytes) (i : Nat) :
    List Nat :=
  (List.range i).filter (fun j => p (BigVec.recordBytes W data j))

/-- Loop invariant of `retain`'s scan, after the first `i` records have
been visited: the length prefix region and everything from the end of the
last removed record on are untouched, the survivors among the first `i`
records that precede the last removal are compacted at the front, and the
bookkeeping counters agree with the survivor count. -/
def RetainInv (W : Nat) (p : Bytes → Bool) (orig : Bytes) (n i : Nat)
    (s : BigVec.RetainState) : Prop :=
  s.data.length = orig.length ∧
  s.vec_len + s.removals_found = n ∧
  (keepIdx W p orig i).length + s.removals_found = i ∧
  (∀ x, x < 4 → byteAt s.data x = byteAt orig x) ∧
  (s.removals_found = 0 →
    s.data = orig ∧ s.dst_start_index = 0 ∧
    ∀ j, j < i → p (BigVec.recordBytes W orig j) = true) ∧
  (0 < s.removals_found →
    ∃ l, l < i ∧ p (BigVec.recordBytes W orig l) = false ∧
      (∀ j, l < j → j < i → p (BigVec.recordBytes W orig j) = true) ∧
      s.dst_start_index = 4 + (keepIdx W p orig l).length * W ∧
      (∀ t, t < (keepIdx W p orig l).length →
        BigVec.recordBytes W s.data t =
          BigVec.recordBytes W orig (byteAt (keepIdx W p orig l) t)) ∧
      (∀ x, 4 + (l + 1) * W ≤ x → byteAt s.data x = byteAt orig x))

/-!
## Proof development: claims C1 - C10
-/

section BytesLemmas

theorem length_writeBytes (data src : Bytes) (pos : Nat)
    (h : pos + src.length ≤ data.length) :
    (writeBytes data pos src).length = data.length := by
  simp only [writeBytes, List.length_append, List.length_take, List.length_drop]
  omega

theorem length_extractBytes (data : Bytes) (pos len : Nat)
    (h : pos + len ≤ data.length) :
    (extractBytes data pos len).length = len := by
  simp only [extractBytes, List.length_take, List.length_drop]
  omega

theorem byteAt_append_left (l₁ l₂ : Bytes) (i : Nat) (h : i < l₁.length) :
    byteAt (l₁ ++ l₂) i = byteAt l₁ i := by
  simp only [byteAt, List.getD]
  rw [List.get?_append h]

theorem byteAt_append_right (l₁ l₂ : Bytes) (i : Nat) (h : l₁.length ≤ i) :
    byteAt (l₁ ++ l₂) i = byteAt l₂ (i - l₁.length) := by
  simp only [byteAt, List.getD]
  rw [List.get?_append_right h]

theorem byteAt_take (l : Bytes) (n i : Nat) (h : i < n) :
    byteAt (l.take n) i = byteAt l i := by
  simp only [byteAt, List.getD]
  rw [List.get?_take h]

theorem byteAt_drop (l : Bytes) (n i : Nat) :
    byteAt (l.drop n) i = byteAt l (n + i) := by
  simp only [byteAt, List.getD, List.get?_drop]

/-- Pointwise description of `writeBytes`: bytes before the written window. -/
theorem byteAt_writeBytes_lt (data src : Bytes) (pos i : Nat)
    (hi : i < pos) (hpos : pos ≤ data.length) :
    byteAt (writeBytes data pos src) i = byteAt data i := by
  unfold writeBytes
  rw [List.append_assoc, byteAt_append_left, byteAt_take _ _ _ hi]
  simp only [List.length_take]
  omega

/-- Pointwise description of `writeBytes`: bytes inside the written window. -/
theorem byteAt_writeBytes_mem (data src : Bytes) (pos i : Nat)
    (h₁ : pos ≤ i) (h₂ : i < pos + src.length) (hpos : pos ≤ data.length) :
    byteAt (writeBytes data pos src) i = byteAt src (i - pos) := by
  unfold writeBytes
  have hl : (data.take pos).length = pos := by
    simp only [List.length_take]
    omega
  rw [List.append_assoc, byteAt_append_right _ _ _ (by omega),
    byteAt_append_left _ _ _ (by rw [hl]; omega), hl]

/-- Pointwise description of `writeBytes`: bytes after the written window. -/
theorem byteAt_writeBytes_ge (data src : Bytes) (pos i : Nat)
    (h : pos + src.length ≤ i) (hpos : pos ≤ data.length) :
    byteAt (writeBytes data pos src) i = byteAt data i := by
  unfold writeBytes
  rw [List.append_assoc, byteAt_append_right, byteAt_append_right, byteAt_drop]
  · congr 1
    simp only [List.length_take]
    omega
  · simp only [List.length_take]
    omega
  · simp only [List.length_take]
    omega

theorem byteAt_extractBytes (data : Bytes) (pos len u : Nat) (hu : u < len) :
    byteAt (extractBytes data pos len) u = byteAt data (pos + u) := by
  unfold extractBytes
  rw [byteAt_take _ _ _ hu, byteAt_drop]

theorem byteAt_eq_get (l : Bytes) (i : Nat) (h : i < l.length) :
    byteAt l i = l.get ⟨i, h⟩ := by
  simp [byteAt, List.getD_eq_get, h]

/-- Two extracted windows of the same length are equal when they agree
pointwise. -/
theorem extractBytes_ext (d₁ d₂ : Bytes) (p₁ p₂ len : Nat)
    (h₁ : p₁ + len ≤ d₁.length) (h₂ : p₂ + len ≤ d₂.length)
    (h : ∀ u < len, byteAt d₁ (p₁ + u) = byteAt d₂ (p₂ + u)) :
    extractBytes d₁ p₁ len = extractBytes d₂ p₂ len := by
  apply List.ext_get
  · rw [length_extractBytes _ _ _ h₁, length_extractBytes _ _ _ h₂]
  · intro n hn₁ hn₂
    have hlt : n < len := by
      rw [length_extractBytes _ _ _ h₁] at hn₁
      exact hn₁
    rw [← byteAt_eq_get, ← byteAt_eq_get, byteAt_extractBytes _ _ _ _ hlt,
      byteAt_extractBytes _ _ _ _ hlt]
    exact h n hlt

theorem readU32_eq (data : Bytes) (h : 4 ≤ data.length) :
    readU32 data = byteAt data 0 + 256 * (byteAt data 1 +
      256 * (byteAt data 2 + 256 * byteAt data 3)) := by
  match data, h with
  | b0 :: b1 :: b2 :: b3 :: rest, _ => simp [readU32, byteAt]

theorem readU32_lt (data : Bytes) (h : 4 ≤ data.length)
    (hb : ∀ b ∈ data, b < 256) : readU32 data < 2 ^ 32 := by
  match data, h with
  | b0 :: b1 :: b2 :: b3 :: rest, _ =>
    have h0 : b0 < 256 := hb b0 (by simp)
    have h1 : b1 < 256 := hb b1 (by simp)
    have h2 : b2 < 256 := hb b2 (by simp)
    have h3 : b3 < 256 := hb b3 (by simp)
    simp only [readU32]
    omega

theorem readU32_writeBytes_u32Bytes (data : Bytes) (v : Nat)
    (h : 4 ≤ data.length) (hv : v < 2 ^ 32) :
    readU32 (writeBytes data 0 (u32Bytes v)) = v := by
  have h4 : (u32Bytes v).length = 4 := by simp [u32Bytes]
  have hlen : 4 ≤ (writeBytes data 0 (u32Bytes v)).length := by
    rw [length_writeBytes]
    · exact h
    · simpa [h4] using h
  rw [readU32_eq _ hlen]
  have hmem : ∀ i < 4, byteAt (writeBytes data 0 (u32Bytes v)) i =
      byteAt (u32Bytes v) i := by
    intro i hi
    have := byteAt_writeBytes_mem data (u32Bytes v) 0 i (Nat.zero_le _)
      (by omega) (Nat.zero_le _)
    simpa using this
  rw [hmem 0 (by norm_num), hmem 1 (by norm_num), hmem 2 (by norm_num),
    hmem 3 (by norm_num)]
  simp only [u32Bytes, byteAt, List.getD]
  simp only [List.get?]
  show v % 256 + 256 * (v / 256 % 256 + 256 * (v / 256 ^ 2 % 256 +
    256 * (v / 256 ^ 3 % 256))) = v
  omega

/-- Reads below the written window of `writeBytes` at position ≥ 4 leave the
`u32` length prefix untouched. -/
theorem readU32_writeBytes_high (data src : Bytes) (pos : Nat)
    (h : 4 ≤ pos) (hpos : pos ≤ data.length) (hlen : 4 ≤ data.length) :
    readU32 (writeBytes data pos src) = readU32 data := by
  have hl : 4 ≤ (writeBytes data pos src).length := by
    simp only [writeBytes, List.length_append, List.length_take, List.length_drop]
    omega
  rw [readU32_eq _ hl, readU32_eq _ hlen]
  rw [byteAt_writeBytes_lt _ _ _ _ (by omega) hpos,
    byteAt_writeBytes_lt _ _ _ _ (by omega) hpos,
    byteAt_writeBytes_lt _ _ _ _ (by omega) hpos,
    byteAt_writeBytes_lt _ _ _ _ (by omega) hpos]

end BytesLemmas

/-- C10: the derived default Fee value is {0, 0}, which `check` rejects with
`InvalidFeeDenominator` (and hence `try_new 0 0` rejects as well), while the
canonical `zero` value {0, 1} passes `check`. -/
theorem c10_default_fee_invalid :
    Fee.derivedDefault = ⟨0, 0⟩ ∧
    Fee.check Fee.derivedDefault = Except.error StakePoolError.InvalidFeeDenominator ∧
    Fee.try_new 0 0 = Except.error StakePoolError.InvalidFeeDenominator ∧
    Fee.check Fee.zero = Except.ok () := by
  refine ⟨rfl, rfl, rfl, rfl⟩

/-- C2 (failing input): the fees 1/14 and 1/142857143 are both valid, yet
their product under `Fee.mul` has denominator 14 · 142857143 = 2000000002,
divisor max(2, 2000000002 / 10^9) = 2, hence final denominator
1000000001 > MAX_FEE_PRECISION: the result is not a valid Fee and `check`
rejects it. -/
theorem c2_fee_mul_denominator_exceeds_cap :
    Fee.check ⟨1, 14⟩ = Except.ok () ∧
    Fee.check ⟨1, 142857143⟩ = Except.ok () ∧
    Fee.mul ⟨1, 14⟩ ⟨1, 142857143⟩ = ⟨0, 1000000001⟩ ∧
    MAX_FEE_PRECISION < (Fee.mul ⟨1, 14⟩ ⟨1, 142857143⟩).denominator ∧
    Fee.check (Fee.mul ⟨1, 14⟩ ⟨1, 142857143⟩) =
      Except.error StakePoolError.InvalidFeeDenominator := by
  refine ⟨rfl, rfl, rfl, by norm_num [Fee.mul, MAX_FEE_PRECISION], rfl⟩

/-- C8: for a valid Fee and any u64 amount, the u128 product does not
overflow, `apply` computes exactly floor(amt · numerator / denominator), and
the result never exceeds the amount. -/
theorem c8_fee_apply_exact (f : Fee) (amt : Nat)
    (hv : Fee.Valid f) (ha : amt < 2 ^ 64) :
    amt * f.numerator < 2 ^ 128 ∧
    Fee.apply f amt = amt * f.numerator / f.denominator ∧
    Fee.apply f amt ≤ amt := by
  obtain ⟨hd0, hdP, hnd⟩ := hv
  have hn : f.numerator < 2 ^ 64 := by
    have : f.denominator < 2 ^ 64 := by
      unfold MAX_FEE_PRECISION at hdP
      omega
    omega
  have hmul : amt * f.numerator < 2 ^ 128 := by
    have h1 : amt * f.numerator ≤ (2 ^ 64 - 1) * (2 ^ 64 - 1) :=
      Nat.mul_le_mul (by omega) (by omega)
    calc amt * f.numerator ≤ (2 ^ 64 - 1) * (2 ^ 64 - 1) := h1
      _ < 2 ^ 128 := by norm_num
  have hdivle : amt * f.numerator / f.denominator ≤ amt := by
    calc amt * f.numerator / f.denominator
        ≤ amt * f.denominator / f.denominator :=
          Nat.div_le_div_right (Nat.mul_le_mul_left amt hnd)
      _ = amt := Nat.mul_div_cancel amt hd0
  have happly : Fee.apply f amt = amt * f.numerator / f.denominator := by
    unfold Fee.apply
    rw [Nat.mod_eq_of_lt hmul, Nat.mod_eq_of_lt (by omega)]
  exact ⟨hmul, happly, by rw [happly]; exact hdivle⟩

/-- Witness for `c8_fee_apply_exact` at Fee 1/4 and amount 1000. -/
theorem c8_fee_apply_exact_witness :
    Fee.apply ⟨1, 4⟩ 1000 = 1000 * 1 / 4 ∧ Fee.apply ⟨1, 4⟩ 1000 ≤ 1000 := by
  have h := c8_fee_apply_exact ⟨1, 4⟩ 1000
    ⟨by norm_num, by norm_num [MAX_FEE_PRECISION], by norm_num⟩ (by norm_num)
  exact ⟨h.2.1, h.2.2⟩

/-- C9: for valid fees a/b and c/d, the cross products fit in u64, equality
and strict ordering by cross-multiplication agree with comparison of the
exact rational values, and 1/2 and 2/4 compare equal. -/
theorem c9_fee_cmp_agrees_with_rationals (a b : Fee)
    (hva : Fee.Valid a) (hvb : Fee.Valid b) :
    a.numerator * b.denominator < 2 ^ 64 ∧
    b.numerator * a.denominator < 2 ^ 64 ∧
    (Fee.eq a b = true ↔
      (a.numerator : ℚ) / a.denominator = (b.numerator : ℚ) / b.denominator) ∧
    (Fee.cmp a b = Ordering.lt ↔
      (a.numerator : ℚ) / a.denominator < (b.numerator : ℚ) / b.denominator) ∧
    (Fee.cmp a b = Ordering.gt ↔
      (b.numerator : ℚ) / b.denominator < (a.numerator : ℚ) / a.denominator) ∧
    Fee.eq ⟨1, 2⟩ ⟨2, 4⟩ = true := by
  obtain ⟨ha0, haP, han⟩ := hva
  obtain ⟨hb0, hbP, hbn⟩ := hvb
  have hP : MAX_FEE_PRECISION = 1000000000 := rfl
  rw [hP] at haP hbP
  have h₁ : a.numerator * b.denominator < 2 ^ 64 := by
    have := Nat.mul_le_mul (le_trans han haP) hbP
    omega
  have h₂ : b.numerator * a.denominator < 2 ^ 64 := by
    have := Nat.mul_le_mul (le_trans hbn hbP) haP
    omega
  have hma : a.numerator * b.denominator % 2 ^ 64 = a.numerator * b.denominator :=
    Nat.mod_eq_of_lt h₁
  have hmb : b.numerator * a.denominator % 2 ^ 64 = b.numerator * a.denominator :=
    Nat.mod_eq_of_lt h₂
  have haq : (0 : ℚ) < (a.denominator : ℚ) := by positivity
  have hbq : (0 : ℚ) < (b.denominator : ℚ) := by positivity
  have hcross_eq : (a.numerator : ℚ) / a.denominator = (b.numerator : ℚ) / b.denominator ↔
      a.numerator * b.denominator = b.numerator * a.denominator := by
    rw [div_eq_div_iff (ne_of_gt haq) (ne_of_gt hbq)]
    constructor
    · intro h
      exact_mod_cast h
    · intro h
      exact_mod_cast h
  have hcross_lt : (a.numerator : ℚ) / a.denominator < (b.numerator : ℚ) / b.denominator ↔
      a.numerator * b.denominator < b.numerator * a.denominator := by
    rw [div_lt_div_iff haq hbq]
    constructor
    · intro h
      exact_mod_cast h
    · intro h
      exact_mod_cast h
  have hcross_gt : (b.numerator : ℚ) / b.denominator < (a.numerator : ℚ) / a.denominator ↔
      b.numerator * a.denominator < a.numerator * b.denominator := by
    rw [div_lt_div_iff hbq haq]
    constructor
    · intro h
      exact_mod_cast h
    · intro h
      exact_mod_cast h
  refine ⟨h₁, h₂, ?_, ?_, ?_, rfl⟩
  · rw [Fee.eq, hma, hmb, beq_iff_eq, hcross_eq]
  · rw [Fee.cmp, hma, hmb, Nat.compare_eq_lt, hcross_lt]
  · rw [Fee.cmp, hma, hmb, Nat.compare_eq_gt, hcross_gt]

/-- Witness for `c9_fee_cmp_agrees_with_rationals` at the fees 1/2 and 2/4. -/
theorem c9_fee_cmp_agrees_with_rationals_witness :
    Fee.eq ⟨1, 2⟩ ⟨2, 4⟩ = true ∧ ((1 : ℚ) / 2 = (2 : ℚ) / 4) := by
  have h := c9_fee_cmp_agrees_with_rationals ⟨1, 2⟩ ⟨2, 4⟩
    ⟨by norm_num, by norm_num [MAX_FEE_PRECISION], by norm_num⟩
    ⟨by norm_num, by norm_num [MAX_FEE_PRECISION], by norm_num⟩
  refine ⟨h.2.2.2.2.2, ?_⟩
  have := (h.2.2.1).mp h.2.2.2.2.2
  simpa using this

/-- Auxiliary: `getD` of a map over `List.range`. -/
theorem getD_map_range {β : Type} (f : Nat → β) (n i : Nat) (d : β)
    (h : i < n) : ((List.range n).map f).getD i d = f i := by
  have hlen : i < ((List.range n).map f).length := by
    simpa using h
  rw [List.getD_eq_getElem _ _ hlen]
  simp [h]

/-- C1 (failing input): the buffer `[1,0,0,0,42]` holds exactly its one
1-byte record.  `push` of a further element serializes the incremented
length prefix before the capacity check, so the failed call returns
`AccountDataTooSmall` but leaves the prefix reading 2: the buffer is not
byte-for-byte unchanged, contradicting validation-before-mutation. -/
theorem c1_push_mutates_length_prefix_on_error :
    BigVec.push 1 [7] [1, 0, 0, 0, 42] =
      ([2, 0, 0, 0, 42], Except.error ProgramError.AccountDataTooSmall) ∧
    BigVec.len [2, 0, 0, 0, 42] = 2 ∧
    ([2, 0, 0, 0, 42] : Bytes) ≠ [1, 0, 0, 0, 42] := by
  refine ⟨rfl, rfl, by decide⟩

/-- C7: `deserialize_mut_slice(skip, len)` fails with `AccountDataTooSmall`
(the index-out-of-range error) exactly when `skip + len` exceeds the record
count, returning no views; otherwise it returns exactly `len` views, the
`i`-th being the byte range of record `skip + i`, and the ranges are
pairwise disjoint (each ends no later than any later one begins). -/
theorem c7_deserialize_mut_slice_views (W : Nat) (data : Bytes)
    (skip plen : Nat) (hW : 0 < W) :
    (BigVec.len data < skip + plen →
      BigVec.deserialize_mut_slice W data skip plen =
        Except.error ProgramError.AccountDataTooSmall) ∧
    (skip + plen ≤ BigVec.len data →
      ∃ views, BigVec.deserialize_mut_slice W data skip plen =
          Except.ok views ∧
        views.length = plen ∧
        (∀ i, i < plen → views.getD i (0, 0) =
          (4 + (skip + i) * W, 4 + (skip + i) * W + W)) ∧
        (∀ i j, i < j → j < plen →
          (views.getD i (0, 0)).2 ≤ (views.getD j (0, 0)).1)) := by
  constructor
  · intro h
    unfold BigVec.deserialize_mut_slice
    rw [if_pos]
    exact h
  · intro h
    have hcount : (4 + skip * W + plen * W - (4 + skip * W)) / W = plen := by
      have : 4 + skip * W + plen * W - (4 + skip * W) = plen * W := by omega
      rw [this, Nat.mul_div_cancel _ hW]
    refine ⟨(List.range plen).map
      (fun i => (4 + skip * W + i * W, 4 + skip * W + i * W + W)), ?_, ?_, ?_, ?_⟩
    · have h' : skip + plen ≤ readU32 data := h
      simp only [BigVec.deserialize_mut_slice]
      rw [if_neg (by omega), hcount]
    · simp
    · intro i hi
      rw [getD_map_range _ _ _ _ hi]
      have : 4 + skip * W + i * W = 4 + (skip + i) * W := by ring
      rw [this]
    · intro i j hij hj
      rw [getD_map_range _ _ _ _ (lt_trans hij hj),
        getD_map_range _ _ _ _ hj]
      simp only
      have : i * W + W = (i + 1) * W := by ring
      have hmul : (i + 1) * W ≤ j * W := Nat.mul_le_mul_right W hij
      calc 4 + skip * W + i * W + W = 4 + skip * W + (i + 1) * W := by ring
        _ ≤ 4 + skip * W + j * W := by omega

/-- Witness for `c7_deserialize_mut_slice_views`: over `[1,2,3,4]` (W = 1),
`skip = 1, len = 2` yields the two views covering records 1 and 2, and
`skip = 1, len = 4` fails. -/
theorem c7_deserialize_mut_slice_views_witness :
    (∃ views, BigVec.deserialize_mut_slice 1 [4, 0, 0, 0, 1, 2, 3, 4] 1 2 =
      Except.ok views ∧ views.length = 2) ∧
    BigVec.deserialize_mut_slice 1 [4, 0, 0, 0, 1, 2, 3, 4] 1 4 =
      Except.error ProgramError.AccountDataTooSmall := by
  constructor
  · obtain ⟨views, hv, hlen, -, -⟩ :=
      (c7_deserialize_mut_slice_views 1 [4, 0, 0, 0, 1, 2, 3, 4] 1 2
        (by norm_num)).2 (by norm_num [BigVec.len, readU32])
    exact ⟨views, hv, hlen⟩
  · exact (c7_deserialize_mut_slice_views 1 [4, 0, 0, 0, 1, 2, 3, 4] 1 4
      (by norm_num)).1 (by norm_num [BigVec.len, readU32])

/-!
### Binary search correctness
-/

section BinarySearchProof

variable {α : Type} [LinearOrder α]

theorem bsLoop_zero (W : Nat) (dec : Bytes → α) (data : Bytes) (e : α)
    (mn mx : Nat) : BigVec.bsLoop W dec data e 0 mn mx = (mn, false) := rfl

theorem bsLoop_succ_stop (W : Nat) (dec : Bytes → α) (data : Bytes) (e : α)
    (fuel mn mx : Nat) (h : ¬ mn ≤ mx) :
    BigVec.bsLoop W dec data e (fuel + 1) mn mx = (mn, false) := by
  simp [BigVec.bsLoop, h]

theorem bsLoop_succ_found (W : Nat) (dec : Bytes → α) (data : Bytes) (e : α)
    (fuel mn mx : Nat) (h : mn ≤ mx)
    (hmid : (mx - mn) / 2 + mn < BigVec.len data)
    (he : BigVec.recAt W dec data ((mx - mn) / 2 + mn) = e) :
    BigVec.bsLoop W dec data e (fuel + 1) mn mx = ((mx - mn) / 2 + mn, true) := by
  simp [BigVec.bsLoop, h, BigVec.get, hmid, he]

theorem bsLoop_succ_lt (W : Nat) (dec : Bytes → α) (data : Bytes) (e : α)
    (fuel mn mx : Nat) (h : mn ≤ mx)
    (hmid : (mx - mn) / 2 + mn < BigVec.len data)
    (hlt : BigVec.recAt W dec data ((mx - mn) / 2 + mn) < e) :
    BigVec.bsLoop W dec data e (fuel + 1) mn mx =
      BigVec.bsLoop W dec data e fuel ((mx - mn) / 2 + mn + 1) mx := by
  simp [BigVec.bsLoop, h, BigVec.get, hmid, hlt, ne_of_lt hlt]

theorem bsLoop_succ_gt_zero (W : Nat) (dec : Bytes → α) (data : Bytes) (e : α)
    (fuel mn mx : Nat) (h : mn ≤ mx)
    (hmid : (mx - mn) / 2 + mn < BigVec.len data)
    (hgt : e < BigVec.recAt W dec data ((mx - mn) / 2 + mn))
    (h0 : (mx - mn) / 2 + mn = 0) :
    BigVec.bsLoop W dec data e (fuel + 1) mn mx = (0, false) := by
  have hmid0 : 0 < BigVec.len data := h0 ▸ hmid
  have hgt0 : e < BigVec.recAt W dec data 0 := h0 ▸ hgt
  simp [BigVec.bsLoop, h, BigVec.get, hmid, h0, hmid0, ne_of_gt hgt0,
    not_lt_of_gt hgt0]

theorem bsLoop_succ_gt (W : Nat) (dec : Bytes → α) (data : Bytes) (e : α)
    (fuel mn mx : Nat) (h : mn ≤ mx)
    (hmid : (mx - mn) / 2 + mn < BigVec.len data)
    (hgt : e < BigVec.recAt W dec data ((mx - mn) / 2 + mn))
    (h0 : (mx - mn) / 2 + mn ≠ 0) :
    BigVec.bsLoop W dec data e (fuel + 1) mn mx =
      BigVec.bsLoop W dec data e fuel mn ((mx - mn) / 2 + mn - 1) := by
  simp [BigVec.bsLoop, h, BigVec.get, hmid, h0, ne_of_gt hgt,
    not_lt_of_gt hgt]

end BinarySearchProof

/-- Loop invariant of `bsLoop`: with sufficient fuel, over a strictly
ascending stored sequence, the loop either finds `e` at the returned index
or returns the insertion point of `e`. -/
theorem bsLoop_spec {α : Type} [LinearOrder α] (W : Nat) (dec : Bytes → α)
    (data : Bytes) (e : α) (n : Nat) (hn : BigVec.len data = n)
    (hsort : ∀ i j : Nat, i < j → j < n →
      BigVec.recAt W dec data i < BigVec.recAt W dec data j) :
    ∀ fuel mn mx : Nat, mn ≤ mx + 1 → mx < n → mx + 1 - mn ≤ fuel →
    (∀ j, j < mn → BigVec.recAt W dec data j < e) →
    (∀ j, mx < j → j < n → e < BigVec.recAt W dec data j) →
    (((BigVec.bsLoop W dec data e fuel mn mx).2 = true →
        (BigVec.bsLoop W dec data e fuel mn mx).1 < n ∧
        BigVec.recAt W dec data (BigVec.bsLoop W dec data e fuel mn mx).1 = e) ∧
     ((BigVec.bsLoop W dec data e fuel mn mx).2 = false →
        (BigVec.bsLoop W dec data e fuel mn mx).1 ≤ n ∧
        (∀ j, j < (BigVec.bsLoop W dec data e fuel mn mx).1 →
          BigVec.recAt W dec data j < e) ∧
        (∀ j, (BigVec.bsLoop W dec data e fuel mn mx).1 ≤ j → j < n →
          e < BigVec.recAt W dec data j))) := by
  intro fuel
  induction fuel with
  | zero =>
    intro mn mx hmn hmx hfuel hlow hhigh
    rw [bsLoop_zero]
    refine ⟨by intro h; simp at h, fun _ => ⟨by omega, hlow, ?_⟩⟩
    intro j hj hjn
    exact hhigh j (by omega) hjn
  | succ fuel ih =>
    intro mn mx hmn hmx hfuel hlow hhigh
    by_cases hc : mn ≤ mx
    · have hge : mn ≤ (mx - mn) / 2 + mn := Nat.le_add_left mn _
      have hle : (mx - mn) / 2 + mn ≤ mx := by omega
      have hmidn : (mx - mn) / 2 + mn < n := lt_of_le_of_lt hle hmx
      have hmidlen : (mx - mn) / 2 + mn < BigVec.len data := by omega
      rcases lt_trichotomy (BigVec.recAt W dec data ((mx - mn) / 2 + mn)) e
        with hlt | heq | hgt
      · rw [bsLoop_succ_lt W dec data e fuel mn mx hc hmidlen hlt]
        refine ih ((mx - mn) / 2 + mn + 1) mx (by omega) hmx (by omega) ?_ hhigh
        intro j hj
        rcases lt_or_ge j mn with h' | h'
        · exact hlow j h'
        · rcases eq_or_lt_of_le (show j ≤ (mx - mn) / 2 + mn by omega)
            with h'' | h''
          · rw [h'']
            exact hlt
          · exact lt_trans (hsort j ((mx - mn) / 2 + mn) h'' hmidn) hlt
      · rw [bsLoop_succ_found W dec data e fuel mn mx hc hmidlen heq]
        exact ⟨fun _ => ⟨hmidn, heq⟩, by intro h; simp at h⟩
      · by_cases h0 : (mx - mn) / 2 + mn = 0
        · rw [bsLoop_succ_gt_zero W dec data e fuel mn mx hc hmidlen hgt h0]
          refine ⟨by intro h; simp at h,
            fun _ => ⟨Nat.zero_le n, by intro j hj; simp at hj, ?_⟩⟩
          intro j _ hjn
          rcases Nat.eq_zero_or_pos j with hj0 | hjpos
          · rw [hj0]
            rw [h0] at hgt
            exact hgt
          · rw [h0] at hgt
            exact lt_trans hgt (hsort 0 j hjpos hjn)
        · rw [bsLoop_succ_gt W dec data e fuel mn mx hc hmidlen hgt h0]
          refine ih mn ((mx - mn) / 2 + mn - 1) (by omega) (by omega)
            (by omega) hlow ?_
          intro j hj hjn
          rcases eq_or_lt_of_le (show (mx - mn) / 2 + mn ≤ j by omega)
            with h' | h'
          · rw [← h']
            exact hgt
          · exact lt_trans hgt (hsort ((mx - mn) / 2 + mn) j h' hjn)
    · rw [bsLoop_succ_stop W dec data e fuel mn mx hc]
      refine ⟨by intro h; simp at h, fun _ => ⟨by omega, hlow, ?_⟩⟩
      intro j hj hjn
      exact hhigh j (by omega) hjn

/-- Specification of `binary_search` over a strictly ascending store:
found means the element is at the returned index; not-found means the
returned index is the insertion point in `[0, len]` and the element is
absent. -/
theorem binary_search_spec {α : Type} [LinearOrder α] (W : Nat)
    (dec : Bytes → α) (data : Bytes) (e : α)
    (hsort : ∀ j, j < BigVec.len data → ∀ i, i < j →
      BigVec.recAt W dec data i < BigVec.recAt W dec data j) :
    ((BigVec.binary_search W dec data e).2 = true →
      (BigVec.binary_search W dec data e).1 < BigVec.len data ∧
      BigVec.recAt W dec data (BigVec.binary_search W dec data e).1 = e) ∧
    ((BigVec.binary_search W dec data e).2 = false →
      (BigVec.binary_search W dec data e).1 ≤ BigVec.len data ∧
      (∀ j, j < (BigVec.binary_search W dec data e).1 →
        BigVec.recAt W dec data j < e) ∧
      (∀ j, (BigVec.binary_search W dec data e).1 ≤ j →
        j < BigVec.len data → e < BigVec.recAt W dec data j) ∧
      (∀ j, j < BigVec.len data → BigVec.recAt W dec data j ≠ e)) := by
  have hsort' : ∀ i j : Nat, i < j → j < BigVec.len data →
      BigVec.recAt W dec data i < BigVec.recAt W dec data j :=
    fun i j hij hj => hsort j hj i hij
  by_cases h0 : BigVec.len data = 0
  · have : BigVec.binary_search W dec data e = (0, false) := by
      simp [BigVec.binary_search, h0]
    rw [this]
    refine ⟨by intro h; simp at h, fun _ => ⟨by omega, ?_, ?_, ?_⟩⟩
    · intro j hj
      simp at hj
    · intro j _ hj
      omega
    · intro j hj
      omega
  · have hpos : 0 < BigVec.len data := Nat.pos_of_ne_zero h0
    have hbs : BigVec.binary_search W dec data e =
        BigVec.bsLoop W dec data e (BigVec.len data) 0 (BigVec.len data - 1) := by
      simp [BigVec.binary_search, h0]
    have hspec := bsLoop_spec W dec data e (BigVec.len data) rfl hsort'
      (BigVec.len data) 0 (BigVec.len data - 1) (by omega) (by omega) (by omega)
      (by intro j hj; omega) (by intro j hj hj'; omega)
    rw [hbs]
    refine ⟨hspec.1, fun hfalse => ?_⟩
    obtain ⟨hle, hlow, hhigh⟩ := hspec.2 hfalse
    refine ⟨hle, hlow, hhigh, ?_⟩
    intro j hj
    rcases lt_or_ge j (BigVec.bsLoop W dec data e (BigVec.len data) 0
      (BigVec.len data - 1)).1 with h' | h'
    · exact ne_of_lt (hlow j h')
    · exact ne_of_gt (hhigh j h' hj)

/-- C6: over a strictly ascending, duplicate-free stored sequence,
`binary_search(e)` returns `(index, true)` with `e` stored at `index` when
present; otherwise `(index, false)` where `index ∈ [0, len]` is the
insertion point: all records before it are less than `e`, all records at or
after it are greater, and `e` is absent. -/
theorem c6_binary_search_insertion_point {α : Type} [LinearOrder α]
    (W : Nat) (dec : Bytes → α) (data : Bytes) (e : α)
    (hsort : ∀ j, j < BigVec.len data → ∀ i, i < j →
      BigVec.recAt W dec data i < BigVec.recAt W dec data j) :
    ((BigVec.binary_search W dec data e).2 = true →
      (BigVec.binary_search W dec data e).1 < BigVec.len data ∧
      BigVec.recAt W dec data (BigVec.binary_search W dec data e).1 = e) ∧
    ((BigVec.binary_search W dec data e).2 = false →
      (BigVec.binary_search W dec data e).1 ≤ BigVec.len data ∧
      (∀ j, j < (BigVec.binary_search W dec data e).1 →
        BigVec.recAt W dec data j < e) ∧
      (∀ j, (BigVec.binary_search W dec data e).1 ≤ j →
        j < BigVec.len data → e < BigVec.recAt W dec data j) ∧
      (∀ j, j < BigVec.len data → BigVec.recAt W dec data j ≠ e)) :=
  binary_search_spec W dec data e hsort

/-- Witness for `c6_binary_search_insertion_point` over stored `[1,2,3,4]`
(W = 1): searching 3 finds it at index 2; searching 5 reports absence. -/
theorem c6_binary_search_insertion_point_witness :
    (BigVec.binary_search 1 (fun b => byteAt b 0) [4, 0, 0, 0, 1, 2, 3, 4]
      (3 : Nat)).1 < BigVec.len [4, 0, 0, 0, 1, 2, 3, 4] ∧
    BigVec.recAt 1 (fun b => byteAt b 0) [4, 0, 0, 0, 1, 2, 3, 4]
      (BigVec.binary_search 1 (fun b => byteAt b 0) [4, 0, 0, 0, 1, 2, 3, 4]
        (3 : Nat)).1 = 3 ∧
    (∀ j, j < BigVec.len [4, 0, 0, 0, 1, 2, 3, 4] →
      BigVec.recAt 1 (fun b => byteAt b 0) [4, 0, 0, 0, 1, 2, 3, 4] j ≠
        (5 : Nat)) := by
  have hsort : ∀ j, j < BigVec.len [4, 0, 0, 0, 1, 2, 3, 4] → ∀ i, i < j →
      BigVec.recAt 1 (fun b => byteAt b 0) [4, 0, 0, 0, 1, 2, 3, 4] i <
      BigVec.recAt 1 (fun b => byteAt b 0) [4, 0, 0, 0, 1, 2, 3, 4] j := by
    decide
  have hfound := (c6_binary_search_insertion_point 1 (fun b => byteAt b 0)
    [4, 0, 0, 0, 1, 2, 3, 4] (3 : Nat) hsort).1 rfl
  have habsent := ((c6_binary_search_insertion_point 1 (fun b => byteAt b 0)
    [4, 0, 0, 0, 1, 2, 3, 4] (5 : Nat) hsort).2 rfl).2.2.2
  exact ⟨hfound.1, hfound.2, habsent⟩

/-- C4: over a strictly ascending, duplicate-free stored sequence,
`insert_in_order` fails with `InvalidArgument` (duplicate key) when the
element is already present, and with `AccountDataTooSmall` (capacity
exceeded) when `4 + (count+1)·W` exceeds the buffer length; in both error
cases the returned buffer is exactly the pre-call buffer. -/
theorem c4_insert_in_order_errors_leave_buffer {α : Type} [LinearOrder α]
    (W : Nat) (dec : Bytes → α) (enc : α → Bytes) (e : α) (data : Bytes)
    (hsort : ∀ j, j < BigVec.len data → ∀ i, i < j →
      BigVec.recAt W dec data i < BigVec.recAt W dec data j)
    (hlen32 : BigVec.len data + 1 < 2 ^ 32) :
    ((∃ j, j < BigVec.len data ∧ BigVec.recAt W dec data j = e) →
      BigVec.insert_in_order W dec enc e data =
        (data, Except.error ProgramError.InvalidArgument)) ∧
    ((∀ j, j < BigVec.len data → BigVec.recAt W dec data j ≠ e) →
      data.length < 4 + (BigVec.len data + 1) * W →
      BigVec.insert_in_order W dec enc e data =
        (data, Except.error ProgramError.AccountDataTooSmall)) := by
  have hspec := binary_search_spec W dec data e hsort
  constructor
  · rintro ⟨j, hj, hje⟩
    have h2 : (BigVec.binary_search W dec data e).2 = true := by
      by_contra h
      have hf : (BigVec.binary_search W dec data e).2 = false :=
        Bool.not_eq_true _ ▸ h
      exact (hspec.2 hf).2.2.2 j hj hje
    simp only [BigVec.insert_in_order]
    rw [if_pos h2]
  · intro habs hcap
    have h2 : (BigVec.binary_search W dec data e).2 = false := by
      by_contra h
      have ht : (BigVec.binary_search W dec data e).2 = true := by
        simpa using h
      obtain ⟨hlt, heq⟩ := hspec.1 ht
      exact habs _ hlt heq
    have hmod : (readU32 data + 1) % 2 ^ 32 = BigVec.len data + 1 :=
      Nat.mod_eq_of_lt hlen32
    simp only [BigVec.insert_in_order, h2]
    rw [if_neg (by simp), hmod, if_pos (by omega)]

/-- Witness for `c4_insert_in_order_errors_leave_buffer` over stored
`[1,2,3,4]` (W = 1, capacity exactly 4 records): inserting the present 3
fails with the duplicate error, inserting 9 fails with the capacity error,
and both leave the buffer untouched. -/
theorem c4_insert_in_order_errors_leave_buffer_witness :
    BigVec.insert_in_order 1 (fun b => byteAt b 0) (fun x : Nat => [x]) 3
      [4, 0, 0, 0, 1, 2, 3, 4] =
      ([4, 0, 0, 0, 1, 2, 3, 4], Except.error ProgramError.InvalidArgument) ∧
    BigVec.insert_in_order 1 (fun b => byteAt b 0) (fun x : Nat => [x]) 9
      [4, 0, 0, 0, 1, 2, 3, 4] =
      ([4, 0, 0, 0, 1, 2, 3, 4],
        Except.error ProgramError.AccountDataTooSmall) := by
  have hsort : ∀ j, j < BigVec.len [4, 0, 0, 0, 1, 2, 3, 4] → ∀ i, i < j →
      BigVec.recAt 1 (fun b => byteAt b 0) [4, 0, 0, 0, 1, 2, 3, 4] i <
      BigVec.recAt 1 (fun b => byteAt b 0) [4, 0, 0, 0, 1, 2, 3, 4] j := by
    decide
  exact ⟨(c4_insert_in_order_errors_leave_buffer 1 (fun b => byteAt b 0)
      (fun x : Nat => [x]) 3 [4, 0, 0, 0, 1, 2, 3, 4] hsort (by decide)).1
      ⟨2, by decide, by decide⟩,
    (c4_insert_in_order_errors_leave_buffer 1 (fun b => byteAt b 0)
      (fun x : Nat => [x]) 9 [4, 0, 0, 0, 1, 2, 3, 4] hsort (by decide)).2
      (by decide) (by decide)⟩

/-- An extracted window equals a given list when it agrees pointwise. -/
theorem extractBytes_eq_list (d : Bytes) (pos : Nat) (l : Bytes)
    (h : pos + l.length ≤ d.length)
    (hpt : ∀ u, u < l.length → byteAt d (pos + u) = byteAt l u) :
    extractBytes d pos l.length = l := by
  apply List.ext_get
  · exact length_extractBytes _ _ _ h
  · intro u hu₁ hu₂
    have hlt : u < l.length := hu₂
    rw [← byteAt_eq_get, ← byteAt_eq_get, byteAt_extractBytes _ _ _ _ hlt]
    exact hpt u hlt

/-- The window just overwritten by `writeBytes` reads back as the source. -/
theorem extractBytes_writeBytes_self (data src : Bytes) (pos : Nat)
    (h : pos + src.length ≤ data.length) :
    extractBytes (writeBytes data pos src) pos src.length = src := by
  apply extractBytes_eq_list
  · rw [length_writeBytes _ _ _ h]
    exact h
  · intro u hu
    rw [byteAt_writeBytes_mem _ _ _ _ (Nat.le_add_right _ _) (by omega)
      (by omega)]
    congr 1
    omega

/-- Mapping over `range (n+1)` is an `insertIdx` of a map over `range n`
when the function agrees below the index, holds the inserted value at it,
and is shifted by one above it. -/
theorem map_range_insertIdx {β : Type} (f g : Nat → β) (n idx : Nat)
    (e : β) (hidx : idx ≤ n)
    (h1 : ∀ j, j < idx → g j = f j) (h2 : g idx = e)
    (h3 : ∀ j, idx < j → j < n + 1 → g j = f (j - 1)) :
    (List.range (n + 1)).map g = ((List.range n).map f).insertIdx idx e := by
  have hlenf : ((List.range n).map f).length = n := by simp
  apply List.ext_getElem
  · rw [List.length_insertIdx _ _ (by omega)]
    simp
  · intro i hi₁ hi₂
    have hin : i < n + 1 := by simpa using hi₁
    simp only [List.getElem_map, List.getElem_range]
    rcases lt_trichotomy i idx with hk | hk | hk
    · rw [List.getElem_insertIdx_of_lt _ _ _ _ hk (by omega)]
      simp only [List.getElem_map, List.getElem_range]
      exact h1 i hk
    · subst hk
      rw [List.getElem_insertIdx_self _ _ _ (by omega)]
      exact h2
    · obtain ⟨m, rfl⟩ : ∃ m, i = idx + m + 1 := ⟨i - idx - 1, by omega⟩
      rw [List.getElem_insertIdx_add_succ _ _ _ _ (by omega)]
      simp only [List.getElem_map, List.getElem_range]
      rw [h3 (idx + m + 1) hk hin]
      congr 1

/-- Byte-level effect of `insert_in_order`'s mutation path: after writing
the incremented length, shifting the tail right one record width and
writing the new encoding at the insertion index, the length prefix reads
`n + 1`, records below the index are untouched, the index holds the new
encoding, and records above it are the old records shifted up by one. -/
theorem insert_write_semantics (W : Nat) (data src : Bytes) (n idx : Nat)
    (hidxle : idx ≤ n) (hcap : 4 + (n + 1) * W ≤ data.length)
    (hsrc : src.length = W) (hlen32 : n + 1 < 2 ^ 32)
    (d3 : Bytes)
    (hd3 : d3 = writeBytes
      (memmove (writeBytes data 0 (u32Bytes (n + 1)))
        (4 + idx * W + W) (4 + idx * W) ((n + 1 - 1 - idx) * W))
      (4 + idx * W) src) :
    readU32 d3 = n + 1 ∧ d3.length = data.length ∧
    (∀ j, j < idx → BigVec.recordBytes W d3 j = BigVec.recordBytes W data j) ∧
    BigVec.recordBytes W d3 idx = src ∧
    (∀ j, idx < j → j < n + 1 →
      BigVec.recordBytes W d3 j = BigVec.recordBytes W data (j - 1)) := by
  set d1 := writeBytes data 0 (u32Bytes (n + 1)) with hd1
  set start := 4 + idx * W with hstart
  set cnt := (n + 1 - 1 - idx) * W with hcnt
  have hcnt' : cnt = (n - idx) * W := by
    rw [hcnt]
    congr 1
  have hsub : (n - idx) * W = n * W - idx * W := Nat.sub_mul n idx W
  have hiw : idx * W ≤ n * W := Nat.mul_le_mul_right W hidxle
  have hsucc : (n + 1) * W = n * W + W := Nat.succ_mul n W
  have hsum : start + cnt = 4 + n * W := by omega
  have hsum1 : start + W + cnt = 4 + (n + 1) * W := by omega
  have h4len : 4 ≤ data.length := by omega
  have hu32len : (u32Bytes (n + 1)).length = 4 := by simp [u32Bytes]
  have hd1len : d1.length = data.length := by
    rw [hd1]
    exact length_writeBytes _ _ _ (by omega)
  have hd1read : readU32 d1 = n + 1 := by
    rw [hd1]
    exact readU32_writeBytes_u32Bytes data _ h4len hlen32
  have hd1at : ∀ x, 4 ≤ x → byteAt d1 x = byteAt data x := by
    intro x hx
    rw [hd1]
    exact byteAt_writeBytes_ge data _ 0 x (by omega) (by omega)
  have hextlen : (extractBytes d1 start cnt).length = cnt :=
    length_extractBytes _ _ _ (by omega)
  set d2 := memmove d1 (start + W) start cnt with hd2
  have hd2len : d2.length = data.length := by
    rw [hd2]
    simp only [memmove]
    rw [length_writeBytes _ _ _ (by rw [hextlen]; omega), hd1len]
  have hd2read : readU32 d2 = n + 1 := by
    rw [hd2]
    simp only [memmove]
    rw [readU32_writeBytes_high _ _ _ (by omega) (by omega) (by omega)]
    exact hd1read
  have hd2at_low : ∀ x, x < start + W → byteAt d2 x = byteAt d1 x := by
    intro x hx
    rw [hd2]
    simp only [memmove]
    exact byteAt_writeBytes_lt d1 _ (start + W) x hx (by omega)
  have hd2at_mid : ∀ x, start + W ≤ x → x < start + W + cnt →
      byteAt d2 x = byteAt d1 (x - W) := by
    intro x hx1 hx2
    rw [hd2]
    simp only [memmove]
    rw [byteAt_writeBytes_mem d1 _ (start + W) x hx1 (by rw [hextlen]; omega)
      (by omega)]
    rw [byteAt_extractBytes d1 start cnt _ (by omega)]
    congr 1
    omega
  have hd3len : d3.length = data.length := by
    rw [hd3]
    rw [length_writeBytes _ _ _ (by rw [hsrc]; omega), hd2len]
  have hd3read : readU32 d3 = n + 1 := by
    rw [hd3]
    rw [readU32_writeBytes_high _ _ _ (by omega) (by omega) (by omega)]
    exact hd2read
  have hd3at_low : ∀ x, x < start → byteAt d3 x = byteAt d2 x := by
    intro x hx
    rw [hd3]
    exact byteAt_writeBytes_lt d2 src start x hx (by omega)
  have hd3at_high : ∀ x, start + W ≤ x → byteAt d3 x = byteAt d2 x := by
    intro x hx
    rw [hd3]
    exact byteAt_writeBytes_ge d2 src start x (by rw [hsrc]; omega) (by omega)
  refine ⟨hd3read, hd3len, ?_, ?_, ?_⟩
  · intro j hj
    have hjw : (j + 1) * W ≤ idx * W := Nat.mul_le_mul_right W (by omega)
    have hjw' : j * W + W = (j + 1) * W := (Nat.succ_mul j W).symm
    apply extractBytes_ext
    · rw [hd3len]
      omega
    · omega
    · intro u hu
      have hx : 4 + j * W + u < start := by omega
      rw [hd3at_low _ hx, hd2at_low _ (by omega), hd1at _ (by omega)]
  · have : BigVec.recordBytes W d3 idx = extractBytes d3 start src.length := by
      rw [hsrc]
      rfl
    rw [this, hd3]
    exact extractBytes_writeBytes_self d2 src start (by rw [hsrc]; omega)
  · intro j hj hjn
    obtain ⟨k, rfl⟩ : ∃ k, j = k + 1 := ⟨j - 1, by omega⟩
    have hkw : (k + 1) * W = k * W + W := Nat.succ_mul k W
    have hkw2 : (k + 2) * W = k * W + W + W := by
      rw [show k + 2 = (k + 1) + 1 from rfl, Nat.succ_mul, hkw]
    have hkn : (k + 2) * W ≤ (n + 1) * W := Nat.mul_le_mul_right W (by omega)
    have hik : (idx + 1) * W ≤ (k + 1) * W := Nat.mul_le_mul_right W (by omega)
    have hiw1 : (idx + 1) * W = idx * W + W := Nat.succ_mul idx W
    simp only [Nat.add_sub_cancel]
    apply extractBytes_ext
    · rw [hd3len]
      omega
    · omega
    · intro u hu
      have hx1 : start + W ≤ 4 + (k + 1) * W + u := by omega
      have hx2 : 4 + (k + 1) * W + u < start + W + cnt := by omega
      rw [hd3at_high _ hx1, hd2at_mid _ hx1 hx2, hd1at _ (by omega)]
      congr 1
      omega

/-- C3: over a strictly ascending, duplicate-free stored sequence with room
for one more record, `insert_in_order` of an absent element succeeds,
increments the length prefix by one, and stores the old sequence with the
element inserted at its ascending position (the binary-search insertion
index, below which all records are smaller and from which all old records
are larger); in particular inserting 6, 2, 8, 4 in sequence into an empty
4-record buffer stores [2, 4, 6, 8]. -/
theorem c3_insert_in_order_success {α : Type} [LinearOrder α]
    (W : Nat) (dec : Bytes → α) (enc : α → Bytes) (e : α) (data : Bytes)
    (hsort : ∀ j, j < BigVec.len data → ∀ i, i < j →
      BigVec.recAt W dec data i < BigVec.recAt W dec data j)
    (habs : ∀ j, j < BigVec.len data → BigVec.recAt W dec data j ≠ e)
    (hlen32 : BigVec.len data + 1 < 2 ^ 32)
    (hcap : 4 + (BigVec.len data + 1) * W ≤ data.length)
    (henc : (enc e).length = W) (hdecenc : dec (enc e) = e) :
    (BigVec.insert_in_order W dec enc e data).2 = Except.ok () ∧
    BigVec.len (BigVec.insert_in_order W dec enc e data).1 =
      BigVec.len data + 1 ∧
    (∀ j, j < (BigVec.binary_search W dec data e).1 →
      BigVec.recAt W dec data j < e) ∧
    (∀ j, (BigVec.binary_search W dec data e).1 ≤ j →
      j < BigVec.len data → e < BigVec.recAt W dec data j) ∧
    BigVec.stored W dec (BigVec.insert_in_order W dec enc e data).1 =
      (BigVec.stored W dec data).insertIdx
        (BigVec.binary_search W dec data e).1 e ∧
    BigVec.stored 1 (fun b => byteAt b 0)
      (BigVec.insert_in_order 1 (fun b => byteAt b 0) (fun v => [v]) 4
        (BigVec.insert_in_order 1 (fun b => byteAt b 0) (fun v => [v]) 8
          (BigVec.insert_in_order 1 (fun b => byteAt b 0) (fun v => [v]) 2
            (BigVec.insert_in_order 1 (fun b => byteAt b 0) (fun v => [v]) 6
              [0, 0, 0, 0, 0, 0, 0, 0]).1).1).1).1 = [2, 4, 6, 8] := by
  have hspec := binary_search_spec W dec data e hsort
  have h2 : (BigVec.binary_search W dec data e).2 = false := by
    by_contra h
    have ht : (BigVec.binary_search W dec data e).2 = true := by simpa using h
    obtain ⟨hlt, heq⟩ := hspec.1 ht
    exact habs _ hlt heq
  obtain ⟨hidxle, hlow, hhigh, -⟩ := hspec.2 h2
  have hread : readU32 data = BigVec.len data := rfl
  have hmod : (readU32 data + 1) % 2 ^ 32 = BigVec.len data + 1 := by
    rw [hread]
    exact Nat.mod_eq_of_lt hlen32
  have hresult : BigVec.insert_in_order W dec enc e data =
      (writeBytes
        (memmove (writeBytes data 0 (u32Bytes (BigVec.len data + 1)))
          (4 + (BigVec.binary_search W dec data e).1 * W + W)
          (4 + (BigVec.binary_search W dec data e).1 * W)
          ((BigVec.len data + 1 - 1 -
            (BigVec.binary_search W dec data e).1) * W))
        (4 + (BigVec.binary_search W dec data e).1 * W) (enc e),
        Except.ok ()) := by
    simp only [BigVec.insert_in_order, h2]
    rw [if_neg (by simp), hmod, if_neg (by omega)]
  obtain ⟨hread3, hlen3, hrec_lt, hrec_idx, hrec_gt⟩ :=
    insert_write_semantics W data (enc e) (BigVec.len data)
      (BigVec.binary_search W dec data e).1 hidxle hcap henc hlen32
      (BigVec.insert_in_order W dec enc e data).1 (by rw [hresult])
  have hlen' : BigVec.len (BigVec.insert_in_order W dec enc e data).1 =
      BigVec.len data + 1 := hread3
  refine ⟨by rw [hresult], hlen', hlow, hhigh, ?_, by decide⟩
  have hstored : BigVec.stored W dec (BigVec.insert_in_order W dec enc e data).1 =
      (List.range (BigVec.len data + 1)).map
        (BigVec.recAt W dec (BigVec.insert_in_order W dec enc e data).1) := by
    rw [BigVec.stored, hlen']
  rw [hstored]
  exact map_range_insertIdx (BigVec.recAt W dec data)
    (BigVec.recAt W dec (BigVec.insert_in_order W dec enc e data).1)
    (BigVec.len data) (BigVec.binary_search W dec data e).1 e hidxle
    (fun j hj => by rw [BigVec.recAt, hrec_lt j hj]; rfl)
    (by rw [BigVec.recAt, hrec_idx]; exact hdecenc)
    (fun j hj hjn => by rw [BigVec.recAt, hrec_gt j hj hjn]; rfl)

/-- Witness for `c3_insert_in_order_success`: inserting 4 into stored
`[2,6,8]` (W = 1, room for one more record) succeeds and stores the old
sequence with 4 inserted at index 1. -/
theorem c3_insert_in_order_success_witness :
    (BigVec.insert_in_order 1 (fun b => byteAt b 0) (fun v => [v]) 4
      [3, 0, 0, 0, 2, 6, 8, 0]).2 = Except.ok () ∧
    BigVec.stored 1 (fun b => byteAt b 0)
      (BigVec.insert_in_order 1 (fun b => byteAt b 0) (fun v => [v]) 4
        [3, 0, 0, 0, 2, 6, 8, 0]).1 =
      (BigVec.stored 1 (fun b => byteAt b 0)
        [3, 0, 0, 0, 2, 6, 8, 0]).insertIdx
        (BigVec.binary_search 1 (fun b => byteAt b 0)
          [3, 0, 0, 0, 2, 6, 8, 0] 4).1 4 := by
  have h := c3_insert_in_order_success 1 (fun b => byteAt b 0)
    (fun v => [v]) 4 [3, 0, 0, 0, 2, 6, 8, 0]
    (by decide) (by decide) (by decide) (by decide) rfl rfl
  exact ⟨h.1, h.2.2.2.2.1⟩

/-!
### Retain correctness

`keepIdx W p data i` lists the survivor indices among the first `i`
records; the loop invariant of `retain` is phrased with it.
-/

theorem keepIdx_succ_keep (W : Nat) (p : Bytes → Bool) (data : Bytes)
    (i : Nat) (h : p (BigVec.recordBytes W data i) = true) :
    keepIdx W p data (i + 1) = keepIdx W p data i ++ [i] := by
  unfold keepIdx
  rw [List.range_succ, List.filter_append]
  simp [h]

theorem keepIdx_succ_drop (W : Nat) (p : Bytes → Bool) (data : Bytes)
    (i : Nat) (h : p (BigVec.recordBytes W data i) = false) :
    keepIdx W p data (i + 1) = keepIdx W p data i := by
  unfold keepIdx
  rw [List.range_succ, List.filter_append]
  simp [h]

theorem keepIdx_length_le (W : Nat) (p : Bytes → Bool) (data : Bytes)
    (i : Nat) : (keepIdx W p data i).length ≤ i := by
  unfold keepIdx
  calc ((List.range i).filter _).length ≤ (List.range i).length :=
        List.length_filter_le _ _
    _ = i := List.length_range i

theorem keepIdx_getD_lt (W : Nat) (p : Bytes → Bool) (data : Bytes)
    (i t : Nat) (h : t < (keepIdx W p data i).length) :
    (keepIdx W p data i).getD t 0 < i := by
  rw [List.getD_eq_getElem _ _ h]
  have hmem := List.getElem_mem h
  unfold keepIdx at hmem
  have := List.mem_filter.mp hmem
  exact List.mem_range.mp this.1

theorem keepIdx_all (W : Nat) (p : Bytes → Bool) (data : Bytes) (i : Nat)
    (h : ∀ j, j < i → p (BigVec.recordBytes W data j) = true) :
    keepIdx W p data i = List.range i := by
  unfold keepIdx
  apply List.filter_eq_self.mpr
  intro a ha
  exact h a (List.mem_range.mp ha)

theorem keepIdx_split (W : Nat) (p : Bytes → Bool) (data : Bytes)
    (l i : Nat) (hli : l < i) (hl : p (BigVec.recordBytes W data l) = false)
    (hpend : ∀ j, l < j → j < i → p (BigVec.recordBytes W data j) = true) :
    keepIdx W p data i =
      keepIdx W p data l ++ List.range' (l + 1) (i - (l + 1)) := by
  obtain ⟨m, rfl⟩ : ∃ m, i = l + 1 + m := ⟨i - (l + 1), by omega⟩
  have hsub : l + 1 + m - (l + 1) = m := by omega
  rw [hsub]
  clear hli hsub
  induction m with
  | zero =>
    rw [keepIdx_succ_drop W p data l hl]
    simp [List.range']
  | succ m ih =>
    have hpend' : ∀ j, l < j → j < l + 1 + m →
        p (BigVec.recordBytes W data j) = true :=
      fun j h1 h2 => hpend j h1 (by omega)
    rw [show l + 1 + (m + 1) = (l + 1 + m) + 1 by ring,
      keepIdx_succ_keep W p data _ (hpend (l + 1 + m) (by omega) (by omega)),
      ih hpend', List.append_assoc]
    congr 1
    rw [List.range'_concat]
    simp [Nat.add_comm]

theorem byteAt_range' (s c u : Nat) (h : u < c) :
    byteAt (List.range' s c) u = s + u := by
  have hlen : u < (List.range' s c).length := by simpa using h
  rw [byteAt, List.getD_eq_getElem _ _ hlen, List.getElem_range']
  simp

/-- Effect of one compacting `sol_memmove` of `retain`: moving the pending
run of keepers (records `l+1 .. i-1`, still at their original positions)
down to just after the already-flushed keepers extends the flushed area to
all survivors among the first `i` records, and touches nothing else. -/
theorem retain_flush (W : Nat) (p : Bytes → Bool) (orig sdata : Bytes)
    (n i l r dst : Nat)
    (hW : 0 < W) (hwf : 4 + n * W ≤ orig.length) (hin : i ≤ n) (hr : 0 < r)
    (hlA : sdata.length = orig.length)
    (hli : l < i) (hlrm : p (BigVec.recordBytes W orig l) = false)
    (hpend : ∀ j, l < j → j < i → p (BigVec.recordBytes W orig j) = true)
    (hC : (keepIdx W p orig i).length + r = i)
    (hflushed : ∀ t, t < (keepIdx W p orig l).length →
      BigVec.recordBytes W sdata t =
        BigVec.recordBytes W orig (byteAt (keepIdx W p orig l) t))
    (hsuffix : ∀ x, 4 + (l + 1) * W ≤ x → byteAt sdata x = byteAt orig x)
    (hlow4 : ∀ x, x < 4 → byteAt sdata x = byteAt orig x)
    (hdst : dst = 4 + (keepIdx W p orig l).length * W)
    (d' : Bytes)
    (hd' : d' = memmove sdata dst (dst + r * W) (4 + i * W - r * W - dst)) :
    d'.length = orig.length ∧
    (∀ x, x < 4 → byteAt d' x = byteAt orig x) ∧
    (∀ t, t < (keepIdx W p orig i).length →
      BigVec.recordBytes W d' t =
        BigVec.recordBytes W orig (byteAt (keepIdx W p orig i) t)) ∧
    (∀ x, 4 + (keepIdx W p orig i).length * W ≤ x →
      byteAt d' x = byteAt sdata x) := by
  have hsplit := keepIdx_split W p orig l i hli hlrm hpend
  have hmle : (keepIdx W p orig l).length ≤ l := keepIdx_length_le W p orig l
  have hmi : (keepIdx W p orig i).length =
      (keepIdx W p orig l).length + (i - (l + 1)) := by
    rw [hsplit]
    simp
  have hmr : (keepIdx W p orig l).length + r = l + 1 := by omega
  have hmrW : (keepIdx W p orig l).length * W + r * W = (l + 1) * W := by
    rw [← Nat.add_mul, hmr]
  have hl1i : (l + 1) * W ≤ i * W := Nat.mul_le_mul_right W (by omega)
  have hin' : i * W ≤ n * W := Nat.mul_le_mul_right W hin
  have hpendW : (i - (l + 1)) * W = i * W - (l + 1) * W := by
    rw [Nat.sub_mul]
  have hmiW : (keepIdx W p orig i).length * W =
      (keepIdx W p orig l).length * W + (i - (l + 1)) * W := by
    rw [hmi, Nat.add_mul]
  have hcnt : 4 + i * W - r * W - dst = (i - (l + 1)) * W := by omega
  have hsrc : dst + r * W = 4 + (l + 1) * W := by omega
  have hdstcnt : dst + (4 + i * W - r * W - dst) =
      4 + (keepIdx W p orig i).length * W := by omega
  have hsrccnt : dst + r * W + (4 + i * W - r * W - dst) = 4 + i * W := by
    omega
  have hextlen : (extractBytes sdata (dst + r * W)
      (4 + i * W - r * W - dst)).length = 4 + i * W - r * W - dst :=
    length_extractBytes _ _ _ (by omega)
  have hd'w : d' = writeBytes sdata dst (extractBytes sdata (dst + r * W)
      (4 + i * W - r * W - dst)) := hd'
  have hlen' : d'.length = orig.length := by
    rw [hd'w, length_writeBytes _ _ _ (by rw [hextlen]; omega), hlA]
  have hat_lt : ∀ x, x < dst → byteAt d' x = byteAt sdata x := by
    intro x hx
    rw [hd'w]
    exact byteAt_writeBytes_lt _ _ _ _ hx (by omega)
  have hat_mid : ∀ x, dst ≤ x → x < 4 + (keepIdx W p orig i).length * W →
      byteAt d' x = byteAt orig (x + r * W) := by
    intro x hx1 hx2
    rw [hd'w, byteAt_writeBytes_mem _ _ _ _ hx1 (by rw [hextlen]; omega)
      (by omega)]
    rw [byteAt_extractBytes _ _ _ _ (by omega)]
    rw [show dst + r * W + (x - dst) = x + r * W by omega]
    exact hsuffix _ (by omega)
  have hat_ge : ∀ x, 4 + (keepIdx W p orig i).length * W ≤ x →
      byteAt d' x = byteAt sdata x := by
    intro x hx
    rw [hd'w]
    exact byteAt_writeBytes_ge _ _ _ _ (by rw [hextlen]; omega) (by omega)
  refine ⟨hlen', ?_, ?_, hat_ge⟩
  · intro x hx
    rw [hat_lt x (by omega)]
    exact hlow4 x hx
  · intro t ht
    rcases lt_or_ge t (keepIdx W p orig l).length with hcase | hcase
    · have htW : (t + 1) * W ≤ (keepIdx W p orig l).length * W :=
        Nat.mul_le_mul_right W (by omega)
      have htW' : t * W + W = (t + 1) * W := (Nat.succ_mul t W).symm
      have hrec : BigVec.recordBytes W d' t = BigVec.recordBytes W sdata t := by
        apply extractBytes_ext
        · rw [hlen']
          omega
        · rw [hlA]
          omega
        · intro u hu
          exact hat_lt _ (by omega)
      rw [hrec, hflushed t hcase]
      congr 1
      rw [hsplit]
      exact (byteAt_append_left _ _ _ hcase).symm
    · have htr : t + r < i + 1 := by omega
      have htW : (t + 1) * W ≤ (keepIdx W p orig i).length * W :=
        Nat.mul_le_mul_right W (by omega)
      have htW' : t * W + W = (t + 1) * W := (Nat.succ_mul t W).symm
      have htWd : (keepIdx W p orig l).length * W ≤ t * W :=
        Nat.mul_le_mul_right W hcase
      have htrW : t * W + r * W = (t + r) * W := (Nat.add_mul t r W).symm
      have htrW1 : (t + r + 1) * W ≤ n * W :=
        Nat.mul_le_mul_right W (by omega)
      have htrW2 : (t + r) * W + W = (t + r + 1) * W := (Nat.succ_mul _ W).symm
      have hrec : BigVec.recordBytes W d' t =
          BigVec.recordBytes W orig (t + r) := by
        apply extractBytes_ext
        · rw [hlen']
          omega
        · omega
        · intro u hu
          rw [hat_mid _ (by omega) (by omega)]
          congr 1
          omega
      rw [hrec]
      congr 1
      rw [hsplit, byteAt_append_right _ _ _ (by omega),
        byteAt_range' _ _ _ (by omega)]
      omega

theorem byteAt_range (n t : Nat) (h : t < n) : byteAt (List.range n) t = t := by
  have hlen : t < (List.range n).length := by simpa using h
  rw [byteAt, List.getD_eq_getElem _ _ hlen, List.getElem_range]

/-- One `retain` scan step preserves the invariant. -/
theorem retainStep_inv (W : Nat) (p : Bytes → Bool) (orig : Bytes)
    (n i : Nat) (s : BigVec.RetainState) (hW : 0 < W)
    (hwf : 4 + n * W ≤ orig.length) (hi : i < n)
    (hInv : RetainInv W p orig n i s) :
    RetainInv W p orig n (i + 1) (BigVec.retainStep W p (4 + i * W) s) := by
  obtain ⟨hA, hB, hC, hD, hzero, hpos⟩ := hInv
  have hi1W : (i + 1) * W ≤ n * W := Nat.mul_le_mul_right W hi
  have hiW : i * W + W = (i + 1) * W := (Nat.succ_mul i W).symm
  have hslice : extractBytes s.data (4 + i * W) W =
      BigVec.recordBytes W orig i := by
    rcases Nat.eq_zero_or_pos s.removals_found with h0 | h0
    · rw [(hzero h0).1]
      rfl
    · obtain ⟨l, hli, -, -, -, -, hsuf⟩ := hpos h0
      have hlW : (l + 1) * W ≤ i * W := Nat.mul_le_mul_right W hli
      apply extractBytes_ext
      · omega
      · omega
      · intro u hu
        exact hsuf _ (by omega)
  simp only [BigVec.retainStep]
  rw [hslice]
  by_cases hkeep : p (BigVec.recordBytes W orig i) = true
  · rw [if_neg (by simp [hkeep])]
    have hC' : (keepIdx W p orig (i + 1)).length + s.removals_found =
        i + 1 := by
      rw [keepIdx_succ_keep W p orig i hkeep]
      simp only [List.length_append, List.length_singleton]
      omega
    refine ⟨hA, hB, hC', hD, ?_, ?_⟩
    · intro h0
      obtain ⟨e1, e2, e3⟩ := hzero h0
      refine ⟨e1, e2, fun j hj => ?_⟩
      rcases Nat.lt_or_ge j i with hj' | hj'
      · exact e3 j hj'
      · rw [show j = i by omega]
        exact hkeep
    · intro h0
      obtain ⟨l, hli, hlrm, hpend, hdst, hflushed, hsuf⟩ := hpos h0
      refine ⟨l, by omega, hlrm, ?_, hdst, hflushed, hsuf⟩
      intro j hj hj'
      rcases Nat.lt_or_ge j i with hj'' | hj''
      · exact hpend j hj hj''
      · rw [show j = i by omega]
        exact hkeep
  · have hkeep' : p (BigVec.recordBytes W orig i) = false :=
      Bool.eq_false_iff.mpr hkeep
    rw [if_pos (by simp [hkeep'])]
    have hC1 : (keepIdx W p orig (i + 1)).length + (s.removals_found + 1) =
        i + 1 := by
      rw [keepIdx_succ_drop W p orig i hkeep']
      omega
    have hklei : (keepIdx W p orig i).length ≤ i := keepIdx_length_le W p orig i
    have hrlt : s.removals_found ≤ i := by omega
    have hvpos : 1 ≤ s.vec_len := by omega
    rcases Nat.eq_zero_or_pos s.removals_found with h0 | h0
    · obtain ⟨hdata, hdst0, hall⟩ := hzero h0
      rw [h0]
      simp only [Nat.zero_mul, Nat.sub_zero]
      rw [if_neg (by omega), hdata]
      have hkeepi : keepIdx W p orig i = List.range i := keepIdx_all W p orig i hall
      have hkeepilen : (keepIdx W p orig i).length = i := by
        rw [hkeepi]
        simp
      refine ⟨rfl, ?_, ?_, fun x hx => rfl, ?_, ?_⟩
      · show s.vec_len - 1 + (0 + 1) = n
        omega
      · show (keepIdx W p orig (i + 1)).length + (0 + 1) = i + 1
        omega
      · intro h
        exact absurd (show (0 : Nat) + 1 = 0 from h) (by omega)
      · intro h1
        refine ⟨i, by omega, hkeep', by intro j hj hj'; omega, ?_, ?_, ?_⟩
        · show 4 + i * W = 4 + (keepIdx W p orig i).length * W
          rw [hkeepilen]
        · intro t ht
          show BigVec.recordBytes W orig t =
            BigVec.recordBytes W orig (byteAt (keepIdx W p orig i) t)
          rw [hkeepi, byteAt_range _ _ (by rw [hkeepilen] at ht; omega)]
        · intro x hx
          rfl
    · obtain ⟨l, hli, hlrm, hpend, hdst, hflushed, hsuf⟩ := hpos h0
      rw [if_pos h0]
      obtain ⟨hlen', hpre', hflush', hge'⟩ := retain_flush W p orig s.data n i
        l s.removals_found s.dst_start_index hW hwf (le_of_lt hi) h0 hA hli
        hlrm hpend hC hflushed hsuf hD hdst _ rfl
      have hkiW : (keepIdx W p orig i).length * W + s.removals_found * W =
          i * W := by
        rw [← Nat.add_mul, hC]
      have hkilei : (keepIdx W p orig i).length * W ≤ (i + 1) * W :=
        Nat.mul_le_mul_right W (by omega)
      have hl1i1 : (l + 1) * W ≤ (i + 1) * W := Nat.mul_le_mul_right W (by omega)
      refine ⟨?_, ?_, ?_, ?_, ?_, ?_⟩
      · exact hlen'
      · show s.vec_len - 1 + (s.removals_found + 1) = n
        omega
      · exact hC1
      · exact hpre'
      · intro h
        exact absurd (show s.removals_found + 1 = 0 from h) (by omega)
      · intro h1
        refine ⟨i, by omega, hkeep', by intro j hj hj'; omega, ?_, ?_, ?_⟩
        · show 4 + i * W - s.removals_found * W =
            4 + (keepIdx W p orig i).length * W
          omega
        · exact hflush'
        · intro x hx
          exact (hge' x (by omega)).trans (hsuf x (by omega))

/-- Running the `retain` scan to completion preserves the invariant up to
`i = n`. -/
theorem retainLoop_inv (W : Nat) (p : Bytes → Bool) (orig : Bytes) (n : Nat)
    (hW : 0 < W) (hwf : 4 + n * W ≤ orig.length) :
    ∀ count i s, i + count = n → RetainInv W p orig n i s →
    RetainInv W p orig n n (BigVec.retainLoop W p count (4 + i * W) s) := by
  intro count
  induction count with
  | zero =>
    intro i s h hInv
    simp only [BigVec.retainLoop]
    rwa [show i = n by omega] at hInv
  | succ count ih =>
    intro i s h hInv
    simp only [BigVec.retainLoop]
    have hstep := retainStep_inv W p orig n i s hW hwf (by omega) hInv
    rw [show 4 + i * W + W = 4 + (i + 1) * W by rw [Nat.succ_mul]; ring]
    exact ih (i + 1) _ (by omega) hstep

/-- Mapping an index function over `range l.length` recovers `l.map`. -/
theorem map_byteAt_range {β : Type} (g : Nat → β) (l : List Nat) :
    (List.range l.length).map (fun t => g (byteAt l t)) = l.map g := by
  apply List.ext_getElem
  · simp
  · intro i h1 h2
    simp only [List.getElem_map, List.getElem_range]
    congr 1
    rw [byteAt, List.getD_eq_getElem _ _ (by simpa using h2)]

/-- C5: `retain` always succeeds and leaves exactly the records satisfying
the predicate, in their original relative order (the stored sequence is the
`filter` of the old one, which also fixes the multiset of survivors); the
length prefix is rewritten to the surviving count. -/
theorem c5_retain_keeps_exactly_survivors (W : Nat) (p : Bytes → Bool)
    (data : Bytes) (hW : 0 < W)
    (hwf : 4 + BigVec.len data * W ≤ data.length)
    (hb : ∀ b ∈ data, b < 256) :
    (BigVec.retain W p data).2 = Except.ok () ∧
    BigVec.storedBytes W (BigVec.retain W p data).1 =
      (BigVec.storedBytes W data).filter p ∧
    BigVec.len (BigVec.retain W p data).1 =
      ((BigVec.storedBytes W data).filter p).length ∧
    ((BigVec.storedBytes W data).filter p).length =
      (BigVec.storedBytes W data).countP p := by
  have hn4 : 4 ≤ data.length := by omega
  have hn32 : readU32 data < 2 ^ 32 := readU32_lt data hn4 hb
  have hwf' : 4 + readU32 data * W ≤ data.length := hwf
  have hInv0 : RetainInv W p data (readU32 data) 0
      ⟨data, readU32 data, 0, 0⟩ :=
    ⟨rfl, rfl, rfl, fun x hx => rfl,
      fun _ => ⟨rfl, rfl, fun j hj => absurd hj (by omega)⟩,
      fun h => absurd (show (0 : Nat) < 0 from h) (by omega)⟩
  have hfin := retainLoop_inv W p data (readU32 data) hW hwf'
    (readU32 data) 0 ⟨data, readU32 data, 0, 0⟩ (by omega) hInv0
  rw [show (4 + 0 * W : Nat) = 4 by simp] at hfin
  set s := BigVec.retainLoop W p (readU32 data) 4
    ⟨data, readU32 data, 0, 0⟩ with hs
  obtain ⟨hA, hB, hC, hD, hzero, hpos⟩ := hfin
  have hklen : (keepIdx W p data (readU32 data)).length ≤ readU32 data :=
    keepIdx_length_le W p data (readU32 data)
  set data1 := if s.removals_found > 0 then
      memmove s.data s.dst_start_index
        (s.dst_start_index + s.removals_found * W)
        (4 + readU32 data * W - s.removals_found * W - s.dst_start_index)
    else s.data with hdata1
  have hF : data1.length = data.length ∧
      (∀ x, x < 4 → byteAt data1 x = byteAt data x) ∧
      (∀ t, t < (keepIdx W p data (readU32 data)).length →
        BigVec.recordBytes W data1 t =
          BigVec.recordBytes W data
            (byteAt (keepIdx W p data (readU32 data)) t)) := by
    rcases Nat.eq_zero_or_pos s.removals_found with h0 | h0
    · obtain ⟨hdata, -, hall⟩ := hzero h0
      rw [hdata1, if_neg (by omega), hdata]
      have hkeepi : keepIdx W p data (readU32 data) =
          List.range (readU32 data) := keepIdx_all W p data _ hall
      have hkeepilen : (keepIdx W p data (readU32 data)).length =
          readU32 data := by
        rw [hkeepi]
        simp
      refine ⟨rfl, fun x hx => rfl, ?_⟩
      intro t ht
      rw [hkeepi, byteAt_range _ _ (by rw [hkeepilen] at ht; omega)]
    · obtain ⟨l, hli, hlrm, hpend, hdst, hflushed, hsuf⟩ := hpos h0
      rw [hdata1, if_pos h0]
      obtain ⟨hlen', hpre', hflush', -⟩ := retain_flush W p data s.data
        (readU32 data) (readU32 data) l s.removals_found s.dst_start_index
        hW hwf' le_rfl h0 hA hli hlrm hpend hC hflushed hsuf hD hdst _ rfl
      exact ⟨hlen', hpre', hflush'⟩
  obtain ⟨hF1, hF2, hF3⟩ := hF
  have hresult : BigVec.retain W p data =
      (writeBytes data1 0 (u32Bytes s.vec_len), Except.ok ()) := by
    simp only [BigVec.retain]
  have hvk : s.vec_len = (keepIdx W p data (readU32 data)).length := by omega
  have hreadres : readU32 (writeBytes data1 0 (u32Bytes s.vec_len)) =
      s.vec_len :=
    readU32_writeBytes_u32Bytes data1 s.vec_len (by omega) (by omega)
  have hrecres : ∀ t, t < (keepIdx W p data (readU32 data)).length →
      BigVec.recordBytes W (writeBytes data1 0 (u32Bytes s.vec_len)) t =
        BigVec.recordBytes W data
          (byteAt (keepIdx W p data (readU32 data)) t) := by
    intro t ht
    have htW : (t + 1) * W ≤ readU32 data * W :=
      Nat.mul_le_mul_right W (by omega)
    have htW' : t * W + W = (t + 1) * W := (Nat.succ_mul t W).symm
    have hrec1 : BigVec.recordBytes W
        (writeBytes data1 0 (u32Bytes s.vec_len)) t =
        BigVec.recordBytes W data1 t := by
      apply extractBytes_ext
      · rw [length_writeBytes _ _ _ (by simp [u32Bytes]; omega)]
        omega
      · omega
      · intro u hu
        exact byteAt_writeBytes_ge _ _ _ _ (by simp [u32Bytes]; omega)
          (by omega)
    rw [hrec1]
    exact hF3 t ht
  have hstored : BigVec.storedBytes W (BigVec.retain W p data).1 =
      (BigVec.storedBytes W data).filter p := by
    rw [hresult]
    show BigVec.storedBytes W (writeBytes data1 0 (u32Bytes s.vec_len)) =
      (BigVec.storedBytes W data).filter p
    set res1 := writeBytes data1 0 (u32Bytes s.vec_len) with hres1
    have hreadres1 : readU32 res1 = s.vec_len := by
      rw [hres1]
      exact hreadres
    rw [BigVec.storedBytes, BigVec.len, hreadres1, hvk]
    calc (List.range (keepIdx W p data (readU32 data)).length).map
          (BigVec.recordBytes W res1)
        = (List.range (keepIdx W p data (readU32 data)).length).map
          (fun t => BigVec.recordBytes W data
            (byteAt (keepIdx W p data (readU32 data)) t)) := by
          apply List.map_congr_left
          intro t ht
          rw [hres1]
          exact hrecres t (List.mem_range.mp ht)
      _ = (keepIdx W p data (readU32 data)).map
            (BigVec.recordBytes W data) :=
          map_byteAt_range (BigVec.recordBytes W data) _
      _ = (BigVec.storedBytes W data).filter p := by
          rw [BigVec.storedBytes, BigVec.len, List.filter_map]
          congr 1
  refine ⟨by rw [hresult], hstored, ?_, (List.countP_eq_length_filter p _).symm⟩
  have hlenstored : (BigVec.storedBytes W (BigVec.retain W p data).1).length =
      ((BigVec.storedBytes W data).filter p).length :=
    congrArg List.length hstored
  rw [BigVec.storedBytes] at hlenstored
  simpa using hlenstored

/-- Witness for `c5_retain_keeps_exactly_survivors`: retaining the even
records of stored `[1,2,3,4]` (W = 1) keeps exactly `[2],[4]`. -/
theorem c5_retain_keeps_exactly_survivors_witness :
    BigVec.storedBytes 1
      (BigVec.retain 1 (fun b => byteAt b 0 % 2 == 0)
        [4, 0, 0, 0, 1, 2, 3, 4]).1 =
      (BigVec.storedBytes 1 [4, 0, 0, 0, 1, 2, 3, 4]).filter
        (fun b => byteAt b 0 % 2 == 0) ∧
    BigVec.storedBytes 1
      (BigVec.retain 1 (fun b => byteAt b 0 % 2 == 0)
        [4, 0, 0, 0, 1, 2, 3, 4]).1 = [[2], [4]] := by
  have h := c5_retain_keeps_exactly_survivors 1 (fun b => byteAt b 0 % 2 == 0)
    [4, 0, 0, 0, 1, 2, 3, 4] (by decide) (by decide) (by decide)
  exact ⟨h.2.1, by decide⟩
